import Mathlib

/-!
Verification of the `normalizePlaybackSeries` helper that the script
`src/tmp_normalize.py` injects (as a text literal) into `src/ui/FRPlayback.tsx`.

The helper is a TypeScript function over `number[][]`.  We embed JavaScript
numbers shallowly: a value is either a finite number (modelled as a rational)
or one of the non-finite values `NaN`, `+Infinity`, `-Infinity`.  The
arithmetic and comparison operators used by the function (`-`, `+`, unary `-`,
`<`, `>`, `Math.max`, `Number.isFinite`) are given their JavaScript semantics
on this domain.
-/

namespace SonicSuite

/-- A JavaScript number: finite (idealised as a rational) or one of the three
non-finite values. -/
inductive JsNum where
  | fin (v : ℚ)
  | nan
  | posInf
  | negInf
  deriving DecidableEq, Repr

/-- JavaScript `Number.isFinite`. -/
def JsNum.isFinite : JsNum → Bool
  | JsNum.fin _ => true
  | _ => false

/-- JavaScript `<` (and, with arguments swapped, `>`): any comparison with
`NaN` is false; `-Infinity` is below every other value; `+Infinity` is above
every other value. -/
def JsNum.lt : JsNum → JsNum → Bool
  | _, JsNum.nan => false
  | JsNum.nan, _ => false
  | JsNum.negInf, JsNum.negInf => false
  | JsNum.negInf, _ => true
  | _, JsNum.negInf => false
  | JsNum.posInf, _ => false
  | _, JsNum.posInf => true
  | JsNum.fin a, JsNum.fin b => decide (a < b)

/-- JavaScript binary `-`. -/
def JsNum.sub : JsNum → JsNum → JsNum
  | JsNum.nan, _ => JsNum.nan
  | _, JsNum.nan => JsNum.nan
  | JsNum.posInf, JsNum.posInf => JsNum.nan
  | JsNum.posInf, _ => JsNum.posInf
  | JsNum.negInf, JsNum.negInf => JsNum.nan
  | JsNum.negInf, _ => JsNum.negInf
  | JsNum.fin _, JsNum.posInf => JsNum.negInf
  | JsNum.fin _, JsNum.negInf => JsNum.posInf
  | JsNum.fin a, JsNum.fin b => JsNum.fin (a - b)

/-- JavaScript binary `+` (on numbers). -/
def JsNum.add : JsNum → JsNum → JsNum
  | JsNum.nan, _ => JsNum.nan
  | _, JsNum.nan => JsNum.nan
  | JsNum.posInf, JsNum.negInf => JsNum.nan
  | JsNum.posInf, _ => JsNum.posInf
  | JsNum.negInf, JsNum.posInf => JsNum.nan
  | JsNum.negInf, _ => JsNum.negInf
  | JsNum.fin _, JsNum.posInf => JsNum.posInf
  | JsNum.fin _, JsNum.negInf => JsNum.negInf
  | JsNum.fin a, JsNum.fin b => JsNum.fin (a + b)

/-- JavaScript unary `-`. -/
def JsNum.neg : JsNum → JsNum
  | JsNum.fin a => JsNum.fin (-a)
  | JsNum.nan => JsNum.nan
  | JsNum.posInf => JsNum.negInf
  | JsNum.negInf => JsNum.posInf

/-- JavaScript `Math.max` on two arguments: `NaN` if either argument is
`NaN`, otherwise the larger argument. -/
def jsMax : JsNum → JsNum → JsNum
  | JsNum.nan, _ => JsNum.nan
  | _, JsNum.nan => JsNum.nan
  | JsNum.posInf, _ => JsNum.posInf
  | _, JsNum.posInf => JsNum.posInf
  | JsNum.negInf, b => b
  | a, JsNum.negInf => a
  | JsNum.fin a, JsNum.fin b => JsNum.fin (max a b)

/-! ## The embedded function

Direct translation of `normalizePlaybackSeries` from the injected TypeScript
(lines 66–110 of `src/tmp_normalize.py`).  A `number[][]` batch becomes
`List (List JsNum)`; the `{ arrays: ... }` wrapper is dropped since `arrays`
is its only field.
-/

/-- One step of the peak-scanning loop:
`if (!Number.isFinite(value)) continue; if (value > peak) peak = value;`. -/
def stepPeak (peak value : JsNum) : JsNum :=
  if value.isFinite then (if JsNum.lt peak value then value else peak) else peak

/-- The peak after the first double loop, starting from
`Number.NEGATIVE_INFINITY`. -/
def rawPeak (series : List (List JsNum)) : JsNum :=
  series.foldl (fun p arr => arr.foldl stepPeak p) JsNum.negInf

/-- The peak actually used: `if (!Number.isFinite(peak)) { peak = 0; }`. -/
def peakOf (series : List (List JsNum)) : JsNum :=
  let p := rawPeak series
  if p.isFinite then p else JsNum.fin 0

/-- Body of the centering loop over one source series: produces the centered
series and threads the running `min` through it.
`normalizedValue = Number.isFinite(value) ? value - peak : Number.NaN;`
`if (Number.isFinite(normalizedValue) && normalizedValue < min) min = normalizedValue;`. -/
def centerLoop (peak : JsNum) : List JsNum → JsNum → JsNum × List JsNum
  | [], mn => (mn, [])
  | value :: rest, mn =>
    let normalizedValue := if value.isFinite then value.sub peak else JsNum.nan
    let mn1 := if normalizedValue.isFinite && JsNum.lt normalizedValue mn then normalizedValue
      else mn
    let r := centerLoop peak rest mn1
    (r.1, normalizedValue :: r.2)

/-- The `series.map((source) => ...)` centering pass, threading the shared
mutable `min` across the series in order. -/
def centerAll (peak : JsNum) : List (List JsNum) → JsNum → JsNum × List (List JsNum)
  | [], mn => (mn, [])
  | src :: rest, mn =>
    let r1 := centerLoop peak src mn
    let r2 := centerAll peak rest r1.1
    (r2.1, r1.2 :: r2.2)

/-- Body of the final pass:
`shifted[i] = Number.isFinite(value) ? Math.max(0, value + offset) : Number.NaN;`. -/
def shiftVal (offset value : JsNum) : JsNum :=
  if value.isFinite then jsMax (JsNum.fin 0) (value.add offset) else JsNum.nan

/-- The embedded `normalizePlaybackSeries`. -/
def normalizePlaybackSeries (series : List (List JsNum)) : List (List JsNum) :=
  if series.length = 0 then []
  else
    let peak := peakOf series
    let c := centerAll peak series JsNum.posInf
    let offset := if c.1.isFinite then c.1.neg else JsNum.fin 0
    c.2.map (fun source => source.map (shiftVal offset))

/-! Sanity checks against the worked examples in the specification. -/

example : normalizePlaybackSeries [] = [] := rfl

example : normalizePlaybackSeries [[JsNum.fin 5]] = [[JsNum.fin 0]] := by
  norm_num [normalizePlaybackSeries, peakOf, rawPeak, stepPeak, centerAll, centerLoop,
    shiftVal, jsMax, JsNum.isFinite, JsNum.lt, JsNum.sub, JsNum.add, JsNum.neg]

example : normalizePlaybackSeries [[JsNum.fin 0, JsNum.fin 10], [JsNum.fin 5, JsNum.fin 5]]
    = [[JsNum.fin 0, JsNum.fin 10], [JsNum.fin 5, JsNum.fin 5]] := by
  norm_num [normalizePlaybackSeries, peakOf, rawPeak, stepPeak, centerAll, centerLoop,
    shiftVal, jsMax, JsNum.isFinite, JsNum.lt, JsNum.sub, JsNum.add, JsNum.neg]

example : normalizePlaybackSeries [[JsNum.nan, JsNum.posInf]] = [[JsNum.nan, JsNum.nan]] := by
  norm_num [normalizePlaybackSeries, peakOf, rawPeak, stepPeak, centerAll, centerLoop,
    shiftVal, jsMax, JsNum.isFinite, JsNum.lt, JsNum.sub, JsNum.add, JsNum.neg]

example : normalizePlaybackSeries [[JsNum.nan, JsNum.fin 10, JsNum.fin (-5)]]
    = [[JsNum.nan, JsNum.fin 15, JsNum.fin 0]] := by
  norm_num [normalizePlaybackSeries, peakOf, rawPeak, stepPeak, centerAll, centerLoop,
    shiftVal, jsMax, JsNum.isFinite, JsNum.lt, JsNum.sub, JsNum.add, JsNum.neg]

/-! ## Analysis layer

To reason about the function we extract the finite values of a batch and
characterise the imperative folds in terms of an option-valued maximum and
minimum over those values.
-/

/-- The finite values of a series, in order. -/
def finParts (l : List JsNum) : List ℚ :=
  l.filterMap (fun x => match x with | JsNum.fin v => some v | _ => none)

/-- The finite values of a whole batch, in order. -/
def batchFinVals (b : List (List JsNum)) : List ℚ :=
  finParts b.flatten

/-- Whether the batch holds at least one finite sample. -/
def hasFiniteB (b : List (List JsNum)) : Bool :=
  !(batchFinVals b).isEmpty

/-- Option-valued maximum of a list of rationals (`none` on the empty list). -/
def maxQ : List ℚ → Option ℚ
  | [] => none
  | v :: rest =>
    some (match maxQ rest with
      | none => v
      | some m => max v m)

/-- Option-valued minimum of a list of rationals (`none` on the empty list). -/
def minQ : List ℚ → Option ℚ
  | [] => none
  | v :: rest =>
    some (match minQ rest with
      | none => v
      | some m => min v m)

/-- Merge of two optional maxima. -/
def combineMax : Option ℚ → Option ℚ → Option ℚ
  | none, b => b
  | some q, none => some q
  | some q, some m => some (max q m)

/-- Merge of two optional minima. -/
def combineMin : Option ℚ → Option ℚ → Option ℚ
  | none, b => b
  | some q, none => some q
  | some q, some m => some (min q m)

theorem maxQ_eq_none {l : List ℚ} : maxQ l = none ↔ l = [] := by
  cases l <;> simp [maxQ]

theorem minQ_eq_none {l : List ℚ} : minQ l = none ↔ l = [] := by
  cases l <;> simp [minQ]

theorem combineMax_none_right (o : Option ℚ) : combineMax o none = o := by
  cases o <;> rfl

theorem combineMin_none_right (o : Option ℚ) : combineMin o none = o := by
  cases o <;> rfl

theorem maxQ_append (l1 l2 : List ℚ) : maxQ (l1 ++ l2) = combineMax (maxQ l1) (maxQ l2) := by
  induction l1 with
  | nil => simp [maxQ, combineMax]
  | cons v rest ih =>
    cases h1 : maxQ rest <;> cases h2 : maxQ l2 <;>
      simp [maxQ, combineMax, h1, h2, ih, max_assoc, combineMax_none_right]

theorem minQ_append (l1 l2 : List ℚ) : minQ (l1 ++ l2) = combineMin (minQ l1) (minQ l2) := by
  induction l1 with
  | nil => simp [minQ, combineMin]
  | cons v rest ih =>
    cases h1 : minQ rest <;> cases h2 : minQ l2 <;>
      simp [minQ, combineMin, h1, h2, ih, min_assoc, combineMin_none_right]

theorem le_maxQ_of_mem {l : List ℚ} {M v : ℚ} (h : maxQ l = some M) (hv : v ∈ l) : v ≤ M := by
  induction l generalizing M with
  | nil => cases hv
  | cons a rest ih =>
    cases hr : maxQ rest with
    | none =>
      have : rest = [] := maxQ_eq_none.mp hr
      subst this
      simp [maxQ] at h
      simp at hv
      simp [hv, h]
    | some m =>
      simp [maxQ, hr] at h
      rcases List.mem_cons.mp hv with rfl | hmem
      · exact h ▸ le_max_left _ _
      · exact h ▸ le_trans (ih hr hmem) (le_max_right _ _)

theorem minQ_le_of_mem {l : List ℚ} {m v : ℚ} (h : minQ l = some m) (hv : v ∈ l) : m ≤ v := by
  induction l generalizing m with
  | nil => cases hv
  | cons a rest ih =>
    cases hr : minQ rest with
    | none =>
      have : rest = [] := minQ_eq_none.mp hr
      subst this
      simp [minQ] at h
      simp at hv
      simp [hv, h]
    | some m0 =>
      simp [minQ, hr] at h
      rcases List.mem_cons.mp hv with rfl | hmem
      · exact h ▸ min_le_left _ _
      · exact h ▸ le_trans (min_le_right _ _) (ih hr hmem)

theorem maxQ_mem {l : List ℚ} {M : ℚ} (h : maxQ l = some M) : M ∈ l := by
  induction l generalizing M with
  | nil => simp [maxQ] at h
  | cons a rest ih =>
    cases hr : maxQ rest with
    | none =>
      simp [maxQ, hr] at h
      simp [h]
    | some m =>
      simp [maxQ, hr] at h
      rcases max_choice a m with hc | hc
      · simp [← h, hc]
      · rw [← h, hc]
        exact List.mem_cons_of_mem _ (ih hr)

theorem minQ_mem {l : List ℚ} {m : ℚ} (h : minQ l = some m) : m ∈ l := by
  induction l generalizing m with
  | nil => simp [minQ] at h
  | cons a rest ih =>
    cases hr : minQ rest with
    | none =>
      simp [minQ, hr] at h
      simp [h]
    | some m0 =>
      simp [minQ, hr] at h
      rcases min_choice a m0 with hc | hc
      · simp [← h, hc]
      · rw [← h, hc]
        exact List.mem_cons_of_mem _ (ih hr)

theorem minQ_map_mono (f : ℚ → ℚ) (hf : ∀ a b : ℚ, a ≤ b → f a ≤ f b) (l : List ℚ) :
    minQ (l.map f) = (minQ l).map f := by
  induction l with
  | nil => simp [minQ]
  | cons v rest ih =>
    cases hr : minQ rest with
    | none => simp [minQ, List.map, ih, hr]
    | some m =>
      have hmin : min (f v) (f m) = f (min v m) := by
        rcases le_total v m with hvm | hvm
        · rw [min_eq_left hvm, min_eq_left (hf _ _ hvm)]
        · rw [min_eq_right hvm, min_eq_right (hf _ _ hvm)]
      simp [minQ, List.map, ih, hr, hmin]

theorem maxQ_map_mono (f : ℚ → ℚ) (hf : ∀ a b : ℚ, a ≤ b → f a ≤ f b) (l : List ℚ) :
    maxQ (l.map f) = (maxQ l).map f := by
  induction l with
  | nil => simp [maxQ]
  | cons v rest ih =>
    cases hr : maxQ rest with
    | none => simp [maxQ, List.map, ih, hr]
    | some m =>
      have hmax : max (f v) (f m) = f (max v m) := by
        rcases le_total v m with hvm | hvm
        · rw [max_eq_right hvm, max_eq_right (hf _ _ hvm)]
        · rw [max_eq_left hvm, max_eq_left (hf _ _ hvm)]
      simp [maxQ, List.map, ih, hr, hmax]

theorem minQ_exists {l : List ℚ} (h : l ≠ []) : ∃ m, minQ l = some m := by
  cases l with
  | nil => exact absurd rfl h
  | cons v rest => exact ⟨_, rfl⟩

theorem maxQ_exists {l : List ℚ} (h : l ≠ []) : ∃ m, maxQ l = some m := by
  cases l with
  | nil => exact absurd rfl h
  | cons v rest => exact ⟨_, rfl⟩

theorem finParts_append (l1 l2 : List JsNum) :
    finParts (l1 ++ l2) = finParts l1 ++ finParts l2 := by
  simp [finParts]

theorem finParts_cons_fin (v : ℚ) (rest : List JsNum) :
    finParts (JsNum.fin v :: rest) = v :: finParts rest := rfl

theorem finParts_cons_nan (rest : List JsNum) :
    finParts (JsNum.nan :: rest) = finParts rest := rfl

theorem finParts_cons_posInf (rest : List JsNum) :
    finParts (JsNum.posInf :: rest) = finParts rest := rfl

theorem finParts_cons_negInf (rest : List JsNum) :
    finParts (JsNum.negInf :: rest) = finParts rest := rfl

theorem hasFiniteB_iff {b : List (List JsNum)} : hasFiniteB b = true ↔ batchFinVals b ≠ [] := by
  simp [hasFiniteB]

/-! ## Characterising the peak loop -/

/-- Abstract view of the `peak` accumulator: `none` means still
`Number.NEGATIVE_INFINITY`, `some q` means the finite value `q`. -/
def peakState : Option ℚ → JsNum
  | none => JsNum.negInf
  | some q => JsNum.fin q

/-- Abstract view of the `min` accumulator: `none` means still
`Number.POSITIVE_INFINITY`, `some q` means the finite value `q`. -/
def minState : Option ℚ → JsNum
  | none => JsNum.posInf
  | some q => JsNum.fin q

/-- Effect of one peak-loop step on the abstract accumulator. -/
def pushMax (o : Option ℚ) : JsNum → Option ℚ
  | JsNum.fin v => some (match o with | none => v | some q => max q v)
  | _ => o

theorem stepPeak_peakState (o : Option ℚ) (x : JsNum) :
    stepPeak (peakState o) x = peakState (pushMax o x) := by
  cases x with
  | fin v =>
    cases o with
    | none => simp [stepPeak, peakState, pushMax, JsNum.isFinite, JsNum.lt]
    | some q =>
      rcases lt_or_le q v with h | h
      · simp [stepPeak, peakState, pushMax, JsNum.isFinite, JsNum.lt, h, max_eq_right h.le]
      · simp [stepPeak, peakState, pushMax, JsNum.isFinite, JsNum.lt, not_lt.mpr h,
          max_eq_left h]
  | nan => cases o <;> rfl
  | posInf => cases o <;> rfl
  | negInf => cases o <;> rfl

theorem foldl_stepPeak_peakState (l : List JsNum) (o : Option ℚ) :
    l.foldl stepPeak (peakState o) = peakState (l.foldl pushMax o) := by
  induction l generalizing o with
  | nil => rfl
  | cons x rest ih => simp [List.foldl_cons, stepPeak_peakState, ih]

theorem foldl_pushMax_eq (l : List JsNum) (o : Option ℚ) :
    l.foldl pushMax o = combineMax o (maxQ (finParts l)) := by
  induction l generalizing o with
  | nil => simp [finParts, maxQ, combineMax_none_right]
  | cons x rest ih =>
    cases x with
    | fin v =>
      rw [List.foldl_cons, ih, finParts_cons_fin]
      cases o <;> cases hr : maxQ (finParts rest) <;>
        simp [pushMax, combineMax, maxQ, hr, max_assoc]
    | nan => rw [List.foldl_cons, ih, finParts_cons_nan]; rfl
    | posInf => rw [List.foldl_cons, ih, finParts_cons_posInf]; rfl
    | negInf => rw [List.foldl_cons, ih, finParts_cons_negInf]; rfl

theorem combineMax_assoc (a b c : Option ℚ) :
    combineMax (combineMax a b) c = combineMax a (combineMax b c) := by
  cases a <;> cases b <;> cases c <;> simp [combineMax, max_assoc]

theorem rawPeak_eq (b : List (List JsNum)) :
    rawPeak b = peakState (maxQ (batchFinVals b)) := by
  have h : ∀ (bb : List (List JsNum)) (o : Option ℚ),
      bb.foldl (fun p arr => arr.foldl stepPeak p) (peakState o)
        = peakState (combineMax o (maxQ (finParts bb.flatten))) := by
    intro bb
    induction bb with
    | nil => intro o; simp [finParts, maxQ, combineMax_none_right]
    | cons src rest ih =>
      intro o
      rw [List.foldl_cons, foldl_stepPeak_peakState, foldl_pushMax_eq]
      rw [show (src :: rest).flatten = src ++ rest.flatten from rfl, finParts_append,
        maxQ_append]
      rw [show ∀ o2, peakState (combineMax o (combineMax o2 (maxQ (finParts rest.flatten))))
          = peakState (combineMax (combineMax o o2) (maxQ (finParts rest.flatten)))
        from fun o2 => by rw [combineMax_assoc]]
      exact ih (combineMax o (maxQ (finParts src)))
  have h2 := h b none
  rw [show peakState none = JsNum.negInf from rfl] at h2
  rw [show combineMax none (maxQ (finParts b.flatten)) = maxQ (finParts b.flatten) from rfl]
    at h2
  exact h2

/-- The peak the function actually uses, as a rational: the maximum finite
sample, or 0 when there is none. -/
def peakVal (b : List (List JsNum)) : ℚ := (maxQ (batchFinVals b)).getD 0

theorem peakOf_eq (b : List (List JsNum)) : peakOf b = JsNum.fin (peakVal b) := by
  cases h : maxQ (batchFinVals b) <;>
    simp [peakOf, rawPeak_eq, h, peakState, JsNum.isFinite, peakVal]

/-! ## Characterising the centering pass -/

/-- Value-level effect of the centering pass. -/
def centerValF (peak value : JsNum) : JsNum :=
  if value.isFinite then value.sub peak else JsNum.nan

/-- Effect of one centering step on the `min` accumulator. -/
def minPush (peak mn value : JsNum) : JsNum :=
  let nv := centerValF peak value
  if nv.isFinite && JsNum.lt nv mn then nv else mn

theorem centerLoop_snd (peak : JsNum) (l : List JsNum) (mn : JsNum) :
    (centerLoop peak l mn).2 = l.map (centerValF peak) := by
  induction l generalizing mn with
  | nil => rfl
  | cons v rest ih => simp [centerLoop, centerValF, ih]

theorem centerLoop_fst (peak : JsNum) (l : List JsNum) (mn : JsNum) :
    (centerLoop peak l mn).1 = l.foldl (minPush peak) mn := by
  induction l generalizing mn with
  | nil => rfl
  | cons v rest ih => simp [centerLoop, minPush, centerValF, List.foldl_cons, ih]

theorem centerAll_snd (peak : JsNum) (b : List (List JsNum)) (mn : JsNum) :
    (centerAll peak b mn).2 = b.map (List.map (centerValF peak)) := by
  induction b generalizing mn with
  | nil => rfl
  | cons src rest ih => simp [centerAll, centerLoop_snd, ih]

theorem centerAll_fst (peak : JsNum) (b : List (List JsNum)) (mn : JsNum) :
    (centerAll peak b mn).1 = b.flatten.foldl (minPush peak) mn := by
  induction b generalizing mn with
  | nil => rfl
  | cons src rest ih =>
    simp [centerAll, centerLoop_fst, ih, List.foldl_append]

/-- Effect of one centering step on the abstract `min` accumulator, with the
subtraction of the peak `p` folded in. -/
def pushMinSub (p : ℚ) (o : Option ℚ) : JsNum → Option ℚ
  | JsNum.fin v => some (match o with | none => v - p | some q => min q (v - p))
  | _ => o

theorem minPush_minState (p : ℚ) (o : Option ℚ) (x : JsNum) :
    minPush (JsNum.fin p) (minState o) x = minState (pushMinSub p o x) := by
  cases x with
  | fin v =>
    cases o with
    | none => simp [minPush, minState, pushMinSub, centerValF, JsNum.isFinite, JsNum.sub,
        JsNum.lt]
    | some q =>
      rcases lt_or_le (v - p) q with h | h
      · simp [minPush, minState, pushMinSub, centerValF, JsNum.isFinite, JsNum.sub, JsNum.lt,
          h, min_eq_right h.le]
      · simp [minPush, minState, pushMinSub, centerValF, JsNum.isFinite, JsNum.sub, JsNum.lt,
          not_lt.mpr h, min_eq_left h]
  | nan => cases o <;> rfl
  | posInf => cases o <;> rfl
  | negInf => cases o <;> rfl

theorem foldl_minPush_minState (p : ℚ) (l : List JsNum) (o : Option ℚ) :
    l.foldl (minPush (JsNum.fin p)) (minState o) = minState (l.foldl (pushMinSub p) o) := by
  induction l generalizing o with
  | nil => rfl
  | cons x rest ih => simp [List.foldl_cons, minPush_minState, ih]

theorem foldl_pushMinSub_eq (p : ℚ) (l : List JsNum) (o : Option ℚ) :
    l.foldl (pushMinSub p) o = combineMin o ((minQ (finParts l)).map (fun v => v - p)) := by
  induction l generalizing o with
  | nil => simp [finParts, minQ, combineMin_none_right]
  | cons x rest ih =>
    cases x with
    | fin v =>
      rw [List.foldl_cons, ih, finParts_cons_fin]
      cases o <;> cases hr : minQ (finParts rest) <;>
        simp [pushMinSub, combineMin, minQ, hr, min_assoc, ← min_sub_sub_right]
    | nan => rw [List.foldl_cons, ih, finParts_cons_nan]; rfl
    | posInf => rw [List.foldl_cons, ih, finParts_cons_posInf]; rfl
    | negInf => rw [List.foldl_cons, ih, finParts_cons_negInf]; rfl

theorem centerAll_min_eq (p : ℚ) (b : List (List JsNum)) :
    (centerAll (JsNum.fin p) b JsNum.posInf).1
      = minState ((minQ (batchFinVals b)).map (fun v => v - p)) := by
  rw [centerAll_fst]
  rw [show JsNum.posInf = minState none from rfl, foldl_minPush_minState,
    foldl_pushMinSub_eq]
  rw [show combineMin none ((minQ (finParts b.flatten)).map (fun v => v - p))
      = (minQ (finParts b.flatten)).map (fun v => v - p) from rfl]
  rfl

/-! ## The function as a single map -/

/-- The offset the function adds in its final pass, as a rational. -/
def offsetVal (b : List (List JsNum)) : ℚ :=
  match minQ (batchFinVals b) with
  | some m => peakVal b - m
  | none => 0

/-- Value-level effect of the whole function on one sample, given the peak
`p` and the offset `off`. -/
def outF (p off : ℚ) : JsNum → JsNum
  | JsNum.fin q => JsNum.fin (max 0 (q - p + off))
  | _ => JsNum.nan

theorem shift_center_eq_outF (p off : ℚ) (v : JsNum) :
    shiftVal (JsNum.fin off) (centerValF (JsNum.fin p) v) = outF p off v := by
  cases v <;> simp [shiftVal, centerValF, outF, jsMax, JsNum.isFinite, JsNum.sub, JsNum.add]

theorem normalize_eq_outF (b : List (List JsNum)) (hne : b.length ≠ 0) :
    normalizePlaybackSeries b = b.map (List.map (outF (peakVal b) (offsetVal b))) := by
  unfold normalizePlaybackSeries
  simp only [hne, if_false]
  rw [centerAll_snd]
  rw [show (centerAll (peakOf b) b JsNum.posInf).1
      = minState ((minQ (batchFinVals b)).map (fun v => v - peakVal b)) from by
    rw [peakOf_eq]; exact centerAll_min_eq _ b]
  cases hm : minQ (batchFinVals b) with
  | none =>
    rw [show ((none : Option ℚ).map (fun v => v - peakVal b)) = none from rfl]
    rw [show minState (none : Option ℚ) = JsNum.posInf from rfl]
    rw [if_neg (by simp [JsNum.isFinite])]
    rw [show offsetVal b = 0 from by simp [offsetVal, hm]]
    rw [List.map_map]
    apply List.map_congr_left
    intro l hl
    simp only [Function.comp]
    rw [List.map_map]
    apply List.map_congr_left
    intro v hv
    simp only [Function.comp]
    rw [peakOf_eq]
    exact shift_center_eq_outF _ _ v
  | some m =>
    rw [show ((some m).map (fun v => v - peakVal b)) = some (m - peakVal b) from rfl]
    rw [show minState (some (m - peakVal b)) = JsNum.fin (m - peakVal b) from rfl]
    rw [if_pos (show (JsNum.fin (m - peakVal b)).isFinite = true from rfl)]
    rw [show (JsNum.fin (m - peakVal b)).neg = JsNum.fin (peakVal b - m) from by
      simp [JsNum.neg, neg_sub]]
    rw [show offsetVal b = peakVal b - m from by simp [offsetVal, hm]]
    rw [List.map_map]
    apply List.map_congr_left
    intro l hl
    simp only [Function.comp]
    rw [List.map_map]
    apply List.map_congr_left
    intro v hv
    simp only [Function.comp]
    rw [peakOf_eq]
    exact shift_center_eq_outF _ _ v

/-- When the batch has a finite sample with minimum `m`, the whole function
collapses to subtracting `m` (with a clamp that never fires, kept here in
`max` form). -/
def outSub (m : ℚ) : JsNum → JsNum
  | JsNum.fin q => JsNum.fin (max 0 (q - m))
  | _ => JsNum.nan

theorem outF_eq_outSub {b : List (List JsNum)} {m : ℚ}
    (hm : minQ (batchFinVals b) = some m) :
    outF (peakVal b) (offsetVal b) = outSub m := by
  funext v
  cases v with
  | fin q =>
    rw [show offsetVal b = peakVal b - m from by simp [offsetVal, hm]]
    simp [outF, outSub, sub_add_sub_cancel]
  | nan => rfl
  | posInf => rfl
  | negInf => rfl

theorem normalize_eq_outSub {b : List (List JsNum)} {m : ℚ} (hne : b.length ≠ 0)
    (hm : minQ (batchFinVals b) = some m) :
    normalizePlaybackSeries b = b.map (List.map (outSub m)) := by
  rw [normalize_eq_outF b hne, outF_eq_outSub hm]

/-! ## Finite values of the output -/

theorem finParts_map_outSub (m : ℚ) (l : List JsNum) :
    finParts (l.map (outSub m)) = (finParts l).map (fun q => max 0 (q - m)) := by
  induction l with
  | nil => rfl
  | cons v rest ih =>
    cases v with
    | fin q =>
      rw [List.map_cons, show outSub m (JsNum.fin q) = JsNum.fin (max 0 (q - m)) from rfl,
        finParts_cons_fin, finParts_cons_fin, List.map_cons, ih]
    | nan =>
      rw [List.map_cons, show outSub m JsNum.nan = JsNum.nan from rfl,
        finParts_cons_nan, finParts_cons_nan, ih]
    | posInf =>
      rw [List.map_cons, show outSub m JsNum.posInf = JsNum.nan from rfl,
        finParts_cons_nan, finParts_cons_posInf, ih]
    | negInf =>
      rw [List.map_cons, show outSub m JsNum.negInf = JsNum.nan from rfl,
        finParts_cons_nan, finParts_cons_negInf, ih]

theorem finParts_map_outF (p off : ℚ) (l : List JsNum) :
    finParts (l.map (outF p off)) = (finParts l).map (fun q => max 0 (q - p + off)) := by
  induction l with
  | nil => rfl
  | cons v rest ih =>
    cases v with
    | fin q =>
      rw [List.map_cons,
        show outF p off (JsNum.fin q) = JsNum.fin (max 0 (q - p + off)) from rfl,
        finParts_cons_fin, finParts_cons_fin, List.map_cons, ih]
    | nan =>
      rw [List.map_cons, show outF p off JsNum.nan = JsNum.nan from rfl,
        finParts_cons_nan, finParts_cons_nan, ih]
    | posInf =>
      rw [List.map_cons, show outF p off JsNum.posInf = JsNum.nan from rfl,
        finParts_cons_nan, finParts_cons_posInf, ih]
    | negInf =>
      rw [List.map_cons, show outF p off JsNum.negInf = JsNum.nan from rfl,
        finParts_cons_nan, finParts_cons_negInf, ih]

theorem batchFinVals_map_outSub (m : ℚ) (b : List (List JsNum)) :
    batchFinVals (b.map (List.map (outSub m)))
      = (batchFinVals b).map (fun q => max 0 (q - m)) := by
  unfold batchFinVals
  rw [← List.map_flatten]
  exact finParts_map_outSub m b.flatten

theorem batchFinVals_map_outF (p off : ℚ) (b : List (List JsNum)) :
    batchFinVals (b.map (List.map (outF p off)))
      = (batchFinVals b).map (fun q => max 0 (q - p + off)) := by
  unfold batchFinVals
  rw [← List.map_flatten]
  exact finParts_map_outF p off b.flatten

/-! ## Access and membership lemmas -/

theorem getD_map_eq {α β : Type} (f : α → β) (l : List α) (i : Nat) (d : α) :
    (l.map f).getD i (f d) = f (l.getD i d) := by
  induction l generalizing i with
  | nil => cases i <;> rfl
  | cons a rest ih => cases i with | zero => rfl | succ n => exact ih n

theorem getD_eq_default_or_mem {α : Type} (l : List α) (i : Nat) (d : α) :
    l.getD i d = d ∨ l.getD i d ∈ l := by
  induction l generalizing i with
  | nil => left; cases i <;> rfl
  | cons a rest ih =>
    cases i with
    | zero => right; exact List.mem_cons_self a rest
    | succ n =>
      rcases ih n with h | h
      · exact Or.inl h
      · exact Or.inr (List.mem_cons_of_mem _ h)

theorem mem_batchFinVals_of_mem {b : List (List JsNum)} {l : List JsNum} {q : ℚ}
    (hl : l ∈ b) (hq : JsNum.fin q ∈ l) : q ∈ batchFinVals b :=
  List.mem_filterMap.mpr ⟨JsNum.fin q, List.mem_flatten.mpr ⟨l, hl, hq⟩, rfl⟩

theorem mem_batchFinVals_of_getD {b : List (List JsNum)} {i j : Nat} {v : ℚ}
    (h : (b.getD i []).getD j JsNum.nan = JsNum.fin v) : v ∈ batchFinVals b := by
  rcases getD_eq_default_or_mem b i [] with hb | hb
  · rw [hb] at h
    rcases getD_eq_default_or_mem ([] : List JsNum) j JsNum.nan with hv | hv
    · rw [hv] at h; exact absurd h (by simp)
    · cases hv
  · rcases getD_eq_default_or_mem (b.getD i []) j JsNum.nan with hv | hv
    · rw [hv] at h; exact absurd h (by simp)
    · rw [h] at hv
      exact mem_batchFinVals_of_mem hb hv

theorem batchFinVals_ne_nil_of_getD {b : List (List JsNum)} {i j : Nat} {v : ℚ}
    (h : (b.getD i []).getD j JsNum.nan = JsNum.fin v) : batchFinVals b ≠ [] :=
  List.ne_nil_of_mem (mem_batchFinVals_of_getD h)

theorem length_ne_zero_of_batchFinVals {b : List (List JsNum)}
    (h : batchFinVals b ≠ []) : b.length ≠ 0 := by
  intro h0
  rw [List.length_eq_zero.mp h0] at h
  exact h rfl

/-- Nested congruence for the doubly mapped form. -/
theorem map_map_congr_mem {f g : JsNum → JsNum} (b : List (List JsNum))
    (h : ∀ l ∈ b, ∀ v ∈ l, f v = g v) : b.map (List.map f) = b.map (List.map g) := by
  apply List.map_congr_left
  intro l hl
  exact List.map_congr_left (fun v hv => h l hl v hv)

/-! ## Idempotence -/

theorem outSub_comp_self (m : ℚ) (v : JsNum) : outSub 0 (outSub m v) = outSub m v := by
  cases v with
  | fin q =>
    simp [outSub, max_eq_right (le_max_left (0 : ℚ) (q - m))]
  | nan => rfl
  | posInf => rfl
  | negInf => rfl

theorem outF00_comp_self (v : JsNum) : outF 0 0 (outF 0 0 v) = outF 0 0 v := by
  cases v with
  | fin q =>
    simp [outF, max_eq_right (le_max_left (0 : ℚ) (q - 0 + 0))]
  | nan => rfl
  | posInf => rfl
  | negInf => rfl

theorem normalize_idem (b : List (List JsNum)) :
    normalizePlaybackSeries (normalizePlaybackSeries b) = normalizePlaybackSeries b := by
  by_cases hne : b.length = 0
  · rw [List.length_eq_zero.mp hne]; rfl
  · cases hm : minQ (batchFinVals b) with
    | some m =>
      rw [normalize_eq_outSub hne hm]
      have hbv : batchFinVals (b.map (List.map (outSub m)))
          = (batchFinVals b).map (fun q => max 0 (q - m)) := batchFinVals_map_outSub m b
      have hmono : ∀ a c : ℚ, a ≤ c → max 0 (a - m) ≤ max 0 (c - m) := by
        intro a c hac
        exact max_le_max le_rfl (sub_le_sub_right hac m)
      have hm2 : minQ (batchFinVals (b.map (List.map (outSub m)))) = some 0 := by
        rw [hbv, minQ_map_mono _ hmono, hm]
        simp
      have hlen2 : (b.map (List.map (outSub m))).length ≠ 0 := by
        simpa using hne
      rw [normalize_eq_outSub hlen2 hm2, List.map_map]
      apply List.map_congr_left
      intro l hl
      simp only [Function.comp]
      rw [List.map_map]
      apply List.map_congr_left
      intro v hv
      simp only [Function.comp]
      exact outSub_comp_self m v
    | none =>
      have hbe : batchFinVals b = [] := by
        by_contra hne2
        obtain ⟨m, hm2⟩ := minQ_exists hne2
        rw [hm2] at hm
        cases hm
      have hpk : peakVal b = 0 := by simp [peakVal, maxQ_eq_none.mpr hbe]
      have hoff : offsetVal b = 0 := by simp [offsetVal, hm]
      rw [normalize_eq_outF b hne, hpk, hoff]
      have hbv2 : batchFinVals (b.map (List.map (outF 0 0))) = [] := by
        rw [batchFinVals_map_outF, hbe]
        rfl
      have hlen2 : (b.map (List.map (outF 0 0))).length ≠ 0 := by simpa using hne
      rw [normalize_eq_outF _ hlen2]
      rw [show peakVal (b.map (List.map (outF 0 0))) = 0 from by
        simp [peakVal, maxQ_eq_none.mpr hbv2]]
      rw [show offsetVal (b.map (List.map (outF 0 0))) = 0 from by
        simp [offsetVal, minQ_eq_none.mpr hbv2]]
      rw [List.map_map]
      apply List.map_congr_left
      intro l hl
      simp only [Function.comp]
      rw [List.map_map]
      apply List.map_congr_left
      intro v hv
      simp only [Function.comp]
      exact outF00_comp_self v

/-! ## Positional access to the output -/

theorem normalize_getD (b : List (List JsNum)) (hlen : b.length ≠ 0) (i j : Nat) :
    ((normalizePlaybackSeries b).getD i []).getD j JsNum.nan
      = outF (peakVal b) (offsetVal b) ((b.getD i []).getD j JsNum.nan) := by
  rw [normalize_eq_outF b hlen]
  have h1 : (b.map (List.map (outF (peakVal b) (offsetVal b)))).getD i []
      = (b.getD i []).map (outF (peakVal b) (offsetVal b)) := by
    simpa using getD_map_eq (List.map (outF (peakVal b) (offsetVal b))) b i []
  rw [h1]
  simpa [outF] using
    getD_map_eq (outF (peakVal b) (offsetVal b)) (b.getD i []) j JsNum.nan

theorem isFinite_outF (p off : ℚ) (v : JsNum) : (outF p off v).isFinite = v.isFinite := by
  cases v <;> rfl

/-! ## Spec-side definitions used by individual claims -/

/-- Stated from the claim wording of C2: the minimum finite value after
subtracting the peak from every finite sample (0 when there is none). -/
def minAfterCentering (b : List (List JsNum)) : ℚ :=
  (minQ ((batchFinVals b).map (fun q => q - peakVal b))).getD 0

/-- Stated from the claim wording of C9: the one-stage function mapping each
finite sample `v` to `v - m`, where `m` is the minimum finite sample across
the whole batch, and each non-finite sample to NaN. -/
def oneStageSubMin (b : List (List JsNum)) : List (List JsNum) :=
  b.map (List.map (fun v => match v with
    | JsNum.fin q => JsNum.fin (q - (minQ (batchFinVals b)).getD 0)
    | _ => JsNum.nan))

/-- Final-pass body with the `Math.max(0, ...)` clamp removed, for comparing
against the clamped version (C9). -/
def shiftValNoClamp (offset value : JsNum) : JsNum :=
  if value.isFinite then value.add offset else JsNum.nan

/-- The embedded function with the final clamp removed; identical to
`normalizePlaybackSeries` except for the `Math.max(0, ...)`. -/
def normalizeNoClamp (series : List (List JsNum)) : List (List JsNum) :=
  if series.length = 0 then []
  else
    let peak := peakOf series
    let c := centerAll peak series JsNum.posInf
    let offset := if c.1.isFinite then c.1.neg else JsNum.fin 0
    c.2.map (fun source => source.map (shiftValNoClamp offset))

/-- Value-level effect of the unclamped function on one sample. -/
def outFNC (p off : ℚ) : JsNum → JsNum
  | JsNum.fin q => JsNum.fin (q - p + off)
  | _ => JsNum.nan

theorem shiftNC_center_eq_outFNC (p off : ℚ) (v : JsNum) :
    shiftValNoClamp (JsNum.fin off) (centerValF (JsNum.fin p) v) = outFNC p off v := by
  cases v <;>
    simp [shiftValNoClamp, centerValF, outFNC, JsNum.isFinite, JsNum.sub, JsNum.add]

theorem noclamp_eq_outFNC (b : List (List JsNum)) (hne : b.length ≠ 0) :
    normalizeNoClamp b = b.map (List.map (outFNC (peakVal b) (offsetVal b))) := by
  unfold normalizeNoClamp
  simp only [hne, if_false]
  rw [centerAll_snd]
  rw [show (centerAll (peakOf b) b JsNum.posInf).1
      = minState ((minQ (batchFinVals b)).map (fun v => v - peakVal b)) from by
    rw [peakOf_eq]; exact centerAll_min_eq _ b]
  cases hm : minQ (batchFinVals b) with
  | none =>
    rw [show ((none : Option ℚ).map (fun v => v - peakVal b)) = none from rfl]
    rw [show minState (none : Option ℚ) = JsNum.posInf from rfl]
    rw [if_neg (by simp [JsNum.isFinite])]
    rw [show offsetVal b = 0 from by simp [offsetVal, hm]]
    rw [List.map_map]
    apply List.map_congr_left
    intro l hl
    simp only [Function.comp]
    rw [List.map_map]
    apply List.map_congr_left
    intro v hv
    simp only [Function.comp]
    rw [peakOf_eq]
    exact shiftNC_center_eq_outFNC _ _ v
  | some m =>
    rw [show ((some m).map (fun v => v - peakVal b)) = some (m - peakVal b) from rfl]
    rw [show minState (some (m - peakVal b)) = JsNum.fin (m - peakVal b) from rfl]
    rw [if_pos (show (JsNum.fin (m - peakVal b)).isFinite = true from rfl)]
    rw [show (JsNum.fin (m - peakVal b)).neg = JsNum.fin (peakVal b - m) from by
      simp [JsNum.neg, neg_sub]]
    rw [show offsetVal b = peakVal b - m from by simp [offsetVal, hm]]
    rw [List.map_map]
    apply List.map_congr_left
    intro l hl
    simp only [Function.comp]
    rw [List.map_map]
    apply List.map_congr_left
    intro v hv
    simp only [Function.comp]
    rw [peakOf_eq]
    exact shiftNC_center_eq_outFNC _ _ v

/-! ## Claim theorems -/

/-- C1: for every input batch containing at least one finite sample, the
minimum finite value across the output of `normalizePlaybackSeries` is
exactly 0; and for every input batch whatsoever, no finite output value is
negative. -/
theorem c1_theorem (b : List (List JsNum)) :
    (hasFiniteB b = true → minQ (batchFinVals (normalizePlaybackSeries b)) = some 0) ∧
    ∀ q ∈ batchFinVals (normalizePlaybackSeries b), 0 ≤ q := by
  constructor
  · intro h
    have hbne := hasFiniteB_iff.mp h
    obtain ⟨m, hm⟩ := minQ_exists hbne
    have hlen := length_ne_zero_of_batchFinVals hbne
    rw [normalize_eq_outSub hlen hm, batchFinVals_map_outSub,
      minQ_map_mono _ (fun a c hac => max_le_max le_rfl (sub_le_sub_right hac m)), hm]
    simp
  · intro q hq
    by_cases hlen : b.length = 0
    · rw [List.length_eq_zero.mp hlen] at hq
      simp [normalizePlaybackSeries, batchFinVals, finParts] at hq
    · rw [normalize_eq_outF b hlen, batchFinVals_map_outF] at hq
      obtain ⟨a, _, rfl⟩ := List.mem_map.mp hq
      exact le_max_left 0 _

/-- Witness for C1 at the two-series example from the specification. -/
theorem c1_witness :
    minQ (batchFinVals (normalizePlaybackSeries
      [[JsNum.fin 0, JsNum.fin 10], [JsNum.fin 5, JsNum.fin 5]])) = some 0 :=
  (c1_theorem _).1 rfl

/-- C2 counterexample: at the batch `[[1]]` the maximum finite output value
is 0, while `peakOriginal - minAfterCentering = 1 - (1 - 1) = 1`, so the
claimed equality fails. -/
theorem c2_counterexample :
    ¬ maxQ (batchFinVals (normalizePlaybackSeries [[JsNum.fin 1]]))
        = some (peakVal [[JsNum.fin 1]] - minAfterCentering [[JsNum.fin 1]]) := by
  norm_num [normalizePlaybackSeries, peakOf, rawPeak, stepPeak, centerAll, centerLoop,
    shiftVal, jsMax, JsNum.isFinite, JsNum.lt, JsNum.sub, JsNum.add, JsNum.neg,
    batchFinVals, finParts, maxQ, minQ, peakVal, minAfterCentering]

/-- C2 (amended): for every batch with at least one finite value, the maximum
finite output value equals `0 - minAfterCentering` (the centered values peak
at 0 and the final pass adds `-minAfterCentering`), and this quantity is
nonnegative. -/
theorem c2_theorem (b : List (List JsNum)) (h : hasFiniteB b = true) :
    maxQ (batchFinVals (normalizePlaybackSeries b)) = some (0 - minAfterCentering b) ∧
    0 ≤ 0 - minAfterCentering b := by
  have hbne := hasFiniteB_iff.mp h
  obtain ⟨m, hm⟩ := minQ_exists hbne
  obtain ⟨M, hM⟩ := maxQ_exists hbne
  have hlen := length_ne_zero_of_batchFinVals hbne
  have hmM : m ≤ M := le_maxQ_of_mem hM (minQ_mem hm)
  have hpv : peakVal b = M := by simp [peakVal, hM]
  have hmac : minAfterCentering b = m - M := by
    unfold minAfterCentering
    rw [hpv, minQ_map_mono _ (fun a c hac => sub_le_sub_right hac M), hm]
    rfl
  constructor
  · rw [normalize_eq_outSub hlen hm, batchFinVals_map_outSub,
      maxQ_map_mono _ (fun a c hac => max_le_max le_rfl (sub_le_sub_right hac m)), hM, hmac]
    rw [show ((some M).map (fun q => max 0 (q - m))) = some (max 0 (M - m)) from rfl]
    rw [max_eq_right (sub_nonneg.mpr hmM)]
    congr 1
    ring
  · rw [hmac]
    simp [hmM]

/-- Witness for C2 (amended) at the two-series example. -/
theorem c2_witness :
    maxQ (batchFinVals (normalizePlaybackSeries
        [[JsNum.fin 0, JsNum.fin 10], [JsNum.fin 5, JsNum.fin 5]]))
      = some (0 - minAfterCentering [[JsNum.fin 0, JsNum.fin 10], [JsNum.fin 5, JsNum.fin 5]])
    ∧ 0 ≤ 0 - minAfterCentering [[JsNum.fin 0, JsNum.fin 10], [JsNum.fin 5, JsNum.fin 5]] :=
  c2_theorem _ rfl

/-- C3 counterexample: the claim asserts the existence of a batch on which
the function is not idempotent; no such batch exists. -/
theorem c3_counterexample :
    ¬ ∃ b : List (List JsNum),
      normalizePlaybackSeries (normalizePlaybackSeries b) ≠ normalizePlaybackSeries b := by
  rintro ⟨b, hb⟩
  exact hb (normalize_idem b)

/-- C3 (amended): `normalizePlaybackSeries` is idempotent — applying it twice
produces the same output as applying it once, for every input batch. -/
theorem c3_theorem (b : List (List JsNum)) :
    normalizePlaybackSeries (normalizePlaybackSeries b) = normalizePlaybackSeries b :=
  normalize_idem b

/-- C4: a position of the output is finite exactly when the same position of
the input is finite (out-of-range positions read as NaN on both sides). -/
theorem c4_theorem (b : List (List JsNum)) (i j : Nat) :
    (((normalizePlaybackSeries b).getD i []).getD j JsNum.nan).isFinite
      = ((b.getD i []).getD j JsNum.nan).isFinite := by
  by_cases hlen : b.length = 0
  · rw [List.length_eq_zero.mp hlen]; rfl
  · rw [normalize_getD b hlen i j]
    exact isFinite_outF _ _ _

/-- C5: for two positions whose input samples are both finite, the difference
of the output values equals the difference of the input values. -/
theorem c5_theorem (b : List (List JsNum)) (i j k l : Nat) (v w : ℚ)
    (h1 : (b.getD i []).getD j JsNum.nan = JsNum.fin v)
    (h2 : (b.getD k []).getD l JsNum.nan = JsNum.fin w) :
    JsNum.sub (((normalizePlaybackSeries b).getD i []).getD j JsNum.nan)
        (((normalizePlaybackSeries b).getD k []).getD l JsNum.nan)
      = JsNum.fin (v - w) := by
  have hv := mem_batchFinVals_of_getD h1
  have hw := mem_batchFinVals_of_getD h2
  have hbne : batchFinVals b ≠ [] := List.ne_nil_of_mem hv
  obtain ⟨m, hm⟩ := minQ_exists hbne
  have hlen := length_ne_zero_of_batchFinVals hbne
  rw [normalize_getD b hlen i j, normalize_getD b hlen k l, h1, h2]
  rw [show offsetVal b = peakVal b - m from by simp [offsetVal, hm]]
  have hv2 : m ≤ v := minQ_le_of_mem hm hv
  have hw2 : m ≤ w := minQ_le_of_mem hm hw
  simp [outF, sub_add_sub_cancel, max_eq_right (sub_nonneg.mpr hv2),
    max_eq_right (sub_nonneg.mpr hw2), JsNum.sub]

/-- Witness for C5 at the two-series example. -/
theorem c5_witness :
    JsNum.sub (((normalizePlaybackSeries
          [[JsNum.fin 0, JsNum.fin 10], [JsNum.fin 5, JsNum.fin 5]]).getD 0 []).getD 1
        JsNum.nan)
        (((normalizePlaybackSeries
          [[JsNum.fin 0, JsNum.fin 10], [JsNum.fin 5, JsNum.fin 5]]).getD 1 []).getD 0
        JsNum.nan)
      = JsNum.fin (10 - 5) :=
  c5_theorem _ 0 1 1 0 10 5 rfl rfl

/-- C6: the output has the same number of series as the input, the series at
each index has the same length as the input series at that index, and the
series appear in the same order as in the input batch: the output series at
index `i` is exactly the image of the input series at index `i` under the
batch's single value-level map. -/
theorem c6_theorem (b : List (List JsNum)) :
    (normalizePlaybackSeries b).length = b.length ∧
    (∀ i : Nat, ((normalizePlaybackSeries b).getD i []).length = (b.getD i []).length) ∧
    ∀ i : Nat, (normalizePlaybackSeries b).getD i []
      = (b.getD i []).map (outF (peakVal b) (offsetVal b)) := by
  have hord : ∀ i : Nat, (normalizePlaybackSeries b).getD i []
      = (b.getD i []).map (outF (peakVal b) (offsetVal b)) := by
    intro i
    by_cases hlen : b.length = 0
    · rw [List.length_eq_zero.mp hlen]
      cases i <;> rfl
    · rw [normalize_eq_outF b hlen]
      simpa using getD_map_eq (List.map (outF (peakVal b) (offsetVal b))) b i []
  refine ⟨?_, fun i => by rw [hord i]; simp, hord⟩
  by_cases hlen : b.length = 0
  · rw [List.length_eq_zero.mp hlen]; rfl
  · rw [normalize_eq_outF b hlen]; simp

/-- C7: degenerate inputs are handled by fallback defaults and produce defined
values: the empty batch maps to the empty batch, an all-non-finite batch, a
single-sample series and a batch of mismatched lengths are all normalized
without failure. -/
theorem c7_theorem :
    normalizePlaybackSeries [] = [] ∧
    normalizePlaybackSeries [[JsNum.nan, JsNum.negInf]] = [[JsNum.nan, JsNum.nan]] ∧
    normalizePlaybackSeries [[JsNum.fin 5]] = [[JsNum.fin 0]] ∧
    normalizePlaybackSeries [[JsNum.fin 1], [JsNum.fin 2, JsNum.fin 3]]
      = [[JsNum.fin 0], [JsNum.fin 1, JsNum.fin 2]] := by
  refine ⟨rfl, ?_, ?_, ?_⟩ <;>
    norm_num [normalizePlaybackSeries, peakOf, rawPeak, stepPeak, centerAll, centerLoop,
      shiftVal, jsMax, JsNum.isFinite, JsNum.lt, JsNum.sub, JsNum.add, JsNum.neg]

/-- C8: when no finite sample exists anywhere in the batch, the peak defaults
to 0, and on the concrete batch `[[NaN, Infinity]]` the output is
`[[NaN, NaN]]` — the infinite input is excluded from the peak and propagated
as non-finite, not clamped. -/
theorem c8_theorem :
    (∀ b : List (List JsNum), hasFiniteB b = false → peakOf b = JsNum.fin 0) ∧
    normalizePlaybackSeries [[JsNum.nan, JsNum.posInf]] = [[JsNum.nan, JsNum.nan]] := by
  constructor
  · intro b h
    have hbe : batchFinVals b = [] := by
      simpa [hasFiniteB] using h
    rw [peakOf_eq, show peakVal b = 0 from by simp [peakVal, maxQ_eq_none.mpr hbe]]
  · norm_num [normalizePlaybackSeries, peakOf, rawPeak, stepPeak, centerAll, centerLoop,
      shiftVal, jsMax, JsNum.isFinite, JsNum.lt, JsNum.sub, JsNum.add, JsNum.neg]

/-- Witness for C8 at the all-non-finite batch `[[Infinity]]`. -/
theorem c8_witness :
    hasFiniteB [[JsNum.posInf]] = false ∧ peakOf [[JsNum.posInf]] = JsNum.fin 0 :=
  ⟨rfl, c8_theorem.1 _ rfl⟩

/-- C9: on batches with at least one finite sample the two-stage pipeline
equals the one-stage subtract-the-minimum function, and on every batch the
`Math.max(0, ...)` clamp never changes any value. -/
theorem c9_theorem (b : List (List JsNum)) :
    (hasFiniteB b = true → normalizePlaybackSeries b = oneStageSubMin b) ∧
    normalizeNoClamp b = normalizePlaybackSeries b := by
  constructor
  · intro h
    have hbne := hasFiniteB_iff.mp h
    obtain ⟨m, hm⟩ := minQ_exists hbne
    have hlen := length_ne_zero_of_batchFinVals hbne
    rw [normalize_eq_outSub hlen hm]
    unfold oneStageSubMin
    rw [hm]
    apply map_map_congr_mem
    intro l hl v hv
    cases v with
    | fin q =>
      have hq : q ∈ batchFinVals b := mem_batchFinVals_of_mem hl hv
      have hle : m ≤ q := minQ_le_of_mem hm hq
      simp [outSub, max_eq_right (sub_nonneg.mpr hle)]
    | nan => rfl
    | posInf => rfl
    | negInf => rfl
  · by_cases hlen : b.length = 0
    · rw [List.length_eq_zero.mp hlen]; rfl
    · rw [noclamp_eq_outFNC b hlen, normalize_eq_outF b hlen]
      apply map_map_congr_mem
      intro l hl v hv
      cases v with
      | fin q =>
        have hq : q ∈ batchFinVals b := mem_batchFinVals_of_mem hl hv
        obtain ⟨m, hm⟩ := minQ_exists (List.ne_nil_of_mem hq)
        have hle : m ≤ q := minQ_le_of_mem hm hq
        rw [show offsetVal b = peakVal b - m from by simp [offsetVal, hm]]
        simp [outFNC, outF, sub_add_sub_cancel, max_eq_right (sub_nonneg.mpr hle)]
      | nan => rfl
      | posInf => rfl
      | negInf => rfl

/-- Witness for C9 at the two-series example. -/
theorem c9_witness :
    normalizePlaybackSeries [[JsNum.fin 0, JsNum.fin 10], [JsNum.fin 5, JsNum.fin 5]]
      = oneStageSubMin [[JsNum.fin 0, JsNum.fin 10], [JsNum.fin 5, JsNum.fin 5]] :=
  (c9_theorem _).1 rfl

/-! ## A store-passing model (C10)

To talk about mutation we re-express the function over an explicit store of
arrays.  The store is a list of arrays; a reference is an index into it;
`new Array(n)` appends a fresh array; every assignment `arr[i] = v` in the
source becomes a `writeIdx` on the reference the source writes through.  The
function receives its input series as references and returns references to
the arrays it allocated.
-/

/-- A heap of JavaScript arrays; a reference is an index into it. -/
abbrev Store := List (List JsNum)

/-- Dereference an array. -/
def readArr (st : Store) (r : Nat) : List JsNum := st.getD r []

/-- Allocate `new Array(n)` (cells are written before they are read) and
return the fresh reference. -/
def allocArr (st : Store) (n : Nat) : Store × Nat :=
  (st ++ [List.replicate n JsNum.nan], st.length)

/-- Write one cell of one array: `st[r][i] = v`. -/
def writeIdx (st : Store) (r i : Nat) (v : JsNum) : Store :=
  st.set r ((st.getD r []).set i v)

/-- The centering loop body over the store: reads `source[i]`, writes
`normalized[i]`, updates `min`; `k` counts the remaining iterations. -/
def centerIterST (peak : JsNum) (srcRef newRef : Nat) :
    Nat → Nat → Store → JsNum → Store × JsNum
  | 0, _, st, mn => (st, mn)
  | Nat.succ k, i, st, mn =>
    let value := (readArr st srcRef).getD i JsNum.nan
    let normalizedValue := if value.isFinite then value.sub peak else JsNum.nan
    let st1 := writeIdx st newRef i normalizedValue
    let mn1 := if normalizedValue.isFinite && JsNum.lt normalizedValue mn then normalizedValue
      else mn
    centerIterST peak srcRef newRef k (i + 1) st1 mn1

/-- Centering of one source series: allocate the target array, run the loop. -/
def centerSeriesST (peak : JsNum) (st : Store) (r : Nat) (mn : JsNum) :
    Store × Nat × JsNum :=
  let n := (readArr st r).length
  let a := allocArr st n
  let res := centerIterST peak r a.2 n 0 a.1 mn
  (res.1, a.2, res.2)

/-- The `series.map(...)` centering pass over the store. -/
def centerMapST (peak : JsNum) : List Nat → Store → JsNum → Store × List Nat × JsNum
  | [], st, mn => (st, [], mn)
  | r :: rest, st, mn =>
    let c1 := centerSeriesST peak st r mn
    let c2 := centerMapST peak rest c1.1 c1.2.2
    (c2.1, c1.2.1 :: c2.2.1, c2.2.2)

/-- The final-pass loop body over the store: reads `source[i]`, writes
`shifted[i]`. -/
def shiftIterST (offset : JsNum) (srcRef newRef : Nat) : Nat → Nat → Store → Store
  | 0, _, st => st
  | Nat.succ k, i, st =>
    let value := (readArr st srcRef).getD i JsNum.nan
    let sv := if value.isFinite then jsMax (JsNum.fin 0) (value.add offset) else JsNum.nan
    shiftIterST offset srcRef newRef k (i + 1) (writeIdx st newRef i sv)

/-- Final pass over one centered series. -/
def shiftSeriesST (offset : JsNum) (st : Store) (r : Nat) : Store × Nat :=
  let n := (readArr st r).length
  let a := allocArr st n
  (shiftIterST offset r a.2 n 0 a.1, a.2)

/-- The `centered.map(...)` final pass over the store. -/
def shiftMapST (offset : JsNum) : List Nat → Store → Store × List Nat
  | [], st => (st, [])
  | r :: rest, st =>
    let s1 := shiftSeriesST offset st r
    let s2 := shiftMapST offset rest s1.1
    (s2.1, s1.2 :: s2.2)

/-- The embedded function over the store: takes references to the input
series, returns references to the freshly allocated output series. -/
def normalizeST (st : Store) (refs : List Nat) : Store × List Nat :=
  if refs.length = 0 then (st, [])
  else
    let peak := peakOf (refs.map (readArr st))
    let c := centerMapST peak refs st JsNum.posInf
    let offset := if c.2.2.isFinite then c.2.2.neg else JsNum.fin 0
    shiftMapST offset c.2.1 c.1

/-- Consecutive references starting at `s`. -/
def refsFrom : Nat → Nat → List Nat
  | _, 0 => []
  | s, Nat.succ n => s :: refsFrom (s + 1) n

/-! Store-access lemmas. -/

theorem readArr_append_lt (st xs : Store) (r : Nat) (h : r < st.length) :
    readArr (st ++ xs) r = readArr st r := by
  induction st generalizing r with
  | nil => simp at h
  | cons a rest ih =>
    cases r with
    | zero => rfl
    | succ n =>
      show readArr (rest ++ xs) n = readArr rest n
      exact ih n (by simpa using h)

theorem readArr_append_cons (st : Store) (x : List JsNum) (xs : Store) :
    readArr (st ++ x :: xs) st.length = x := by
  induction st with
  | nil => rfl
  | cons a rest ih => exact ih

theorem set_append_cons (st : Store) (y : List JsNum) (xs : Store) (z : List JsNum) :
    (st ++ y :: xs).set st.length z = st ++ z :: xs := by
  induction st with
  | nil => rfl
  | cons a rest ih => simp [List.set_cons_succ, ih]

theorem set_getD_self (st : Store) (r : Nat) (h : r < st.length) :
    st.set r (st.getD r []) = st := by
  induction st generalizing r with
  | nil => simp at h
  | cons a rest ih =>
    cases r with
    | zero => rfl
    | succ n =>
      show a :: rest.set n (rest.getD n []) = a :: rest
      rw [ih n (by simpa using h)]

theorem writeIdx_length (st : Store) (r i : Nat) (v : JsNum) :
    (writeIdx st r i v).length = st.length :=
  List.length_set st r _

theorem readArr_writeIdx_ne (st : Store) (r r2 i : Nat) (v : JsNum) (h : r ≠ r2) :
    readArr (writeIdx st r i v) r2 = readArr st r2 := by
  induction st generalizing r r2 with
  | nil => rfl
  | cons a rest ih =>
    cases r with
    | zero =>
      cases r2 with
      | zero => exact absurd rfl h
      | succ n2 => rfl
    | succ n =>
      cases r2 with
      | zero => rfl
      | succ n2 =>
        show readArr (writeIdx rest n i v) n2 = readArr rest n2
        exact ih n n2 (fun he => h (by rw [he]))

theorem readArr_writeIdx_self (st : Store) (r i : Nat) (v : JsNum) (h : r < st.length) :
    readArr (writeIdx st r i v) r = (readArr st r).set i v := by
  induction st generalizing r with
  | nil => simp at h
  | cons a rest ih =>
    cases r with
    | zero => rfl
    | succ n =>
      show readArr (writeIdx rest n i v) n = (readArr rest n).set i v
      exact ih n (by simpa using h)

theorem take_succ_set {α : Type} (l : List α) (i : Nat) (v : α) (h : i < l.length) :
    (l.set i v).take (i + 1) = l.take i ++ [v] := by
  induction l generalizing i with
  | nil => simp at h
  | cons a rest ih =>
    cases i with
    | zero => rfl
    | succ n =>
      simp only [List.set_cons_succ, List.take_succ_cons, ih n (by simpa using h)]
      rfl

theorem refsFrom_lt {s n r : Nat} (h : r ∈ refsFrom s n) : r < s + n := by
  induction n generalizing s with
  | zero => cases h
  | succ k ih =>
    rcases List.mem_cons.mp h with rfl | h2
    · omega
    · have := ih h2
      omega

theorem map_readArr_refsFrom (xs : Store) : ∀ st2 : Store,
    (refsFrom st2.length xs.length).map (readArr (st2 ++ xs)) = xs := by
  induction xs with
  | nil => intro st2; rfl
  | cons x rest ih =>
    intro st2
    show readArr (st2 ++ x :: rest) st2.length
        :: (refsFrom (st2.length + 1) rest.length).map (readArr (st2 ++ x :: rest)) = x :: rest
    rw [readArr_append_cons]
    have h2 : st2.length + 1 = (st2 ++ [x]).length := by simp
    rw [show st2 ++ x :: rest = (st2 ++ [x]) ++ rest from by simp, h2, ih (st2 ++ [x])]

theorem refsFrom_length (s n : Nat) : (refsFrom s n).length = n := by
  induction n generalizing s with
  | zero => rfl
  | succ k ih => simp [refsFrom, ih]

/-! Correctness of the store-passing passes against the functional embedding. -/

theorem centerIterST_spec (peak : JsNum) (srcRef newRef : Nat) (hne : srcRef ≠ newRef) :
    ∀ (k i : Nat) (st : Store) (mn : JsNum),
      newRef < st.length →
      i + k = (readArr st srcRef).length →
      (readArr st newRef).length = (readArr st srcRef).length →
      centerIterST peak srcRef newRef k i st mn
        = (st.set newRef ((readArr st newRef).take i
            ++ ((readArr st srcRef).drop i).map (centerValF peak)),
          (centerLoop peak ((readArr st srcRef).drop i) mn).1) := by
  intro k
  induction k with
  | zero =>
    intro i st mn hlt hlen hAlen
    have hd : (readArr st srcRef).drop i = [] := List.drop_eq_nil_of_le (by omega)
    have ht : (readArr st newRef).take i = readArr st newRef :=
      List.take_of_length_le (by omega)
    show (st, mn) = _
    rw [hd, ht]
    rw [show (([] : List JsNum).map (centerValF peak)) = [] from rfl, List.append_nil,
      show (centerLoop peak [] mn).1 = mn from rfl,
      show st.set newRef (readArr st newRef) = st from set_getD_self st newRef hlt]
  | succ k ih =>
    intro i st mn hlt hlen hAlen
    have hsrc : i < (readArr st srcRef).length := by omega
    have hval : (readArr st srcRef).getD i JsNum.nan = (readArr st srcRef)[i] := by
      simp [List.getD_eq_getElem?_getD, List.getElem?_eq_getElem hsrc]
    have step : centerIterST peak srcRef newRef (Nat.succ k) i st mn
        = centerIterST peak srcRef newRef k (i + 1)
            (writeIdx st newRef i (centerValF peak ((readArr st srcRef).getD i JsNum.nan)))
            (minPush peak mn ((readArr st srcRef).getD i JsNum.nan)) := rfl
    rw [step]
    have hrs : readArr (writeIdx st newRef i
          (centerValF peak ((readArr st srcRef).getD i JsNum.nan))) srcRef
        = readArr st srcRef :=
      readArr_writeIdx_ne st newRef srcRef i _ (Ne.symm hne)
    have hrn : readArr (writeIdx st newRef i
          (centerValF peak ((readArr st srcRef).getD i JsNum.nan))) newRef
        = (readArr st newRef).set i
            (centerValF peak ((readArr st srcRef).getD i JsNum.nan)) :=
      readArr_writeIdx_self st newRef i _ hlt
    rw [ih (i + 1) _ _ (by rw [writeIdx_length]; exact hlt)
      (by rw [hrs]; omega) (by rw [hrs, hrn, List.length_set]; exact hAlen)]
    rw [hrs, hrn]
    rw [take_succ_set _ i _ (by rw [hAlen]; exact hsrc)]
    rw [show writeIdx st newRef i (centerValF peak ((readArr st srcRef).getD i JsNum.nan))
        = st.set newRef ((st.getD newRef []).set i
            (centerValF peak ((readArr st srcRef).getD i JsNum.nan))) from rfl]
    rw [List.set_set]
    rw [show (readArr st srcRef).drop i = (readArr st srcRef)[i] :: (readArr st srcRef).drop (i + 1)
      from List.drop_eq_getElem_cons hsrc, ← hval, List.map_cons]
    rw [centerLoop_fst, centerLoop_fst, List.foldl_cons]
    rw [show (minPush peak) mn ((readArr st srcRef).getD i JsNum.nan)
      = minPush peak mn ((readArr st srcRef).getD i JsNum.nan) from rfl]
    simp [List.append_assoc]

theorem centerSeriesST_spec (peak : JsNum) (st : Store) (r : Nat) (mn : JsNum)
    (h : r < st.length) :
    centerSeriesST peak st r mn
      = (st ++ [(readArr st r).map (centerValF peak)], st.length,
         (centerLoop peak (readArr st r) mn).1) := by
  have hst2r : readArr (st ++ [List.replicate (readArr st r).length JsNum.nan]) r
      = readArr st r :=
    readArr_append_lt st _ r h
  have hst2n : readArr (st ++ [List.replicate (readArr st r).length JsNum.nan]) st.length
      = List.replicate (readArr st r).length JsNum.nan :=
    readArr_append_cons st _ []
  have hspec := centerIterST_spec peak r st.length (Nat.ne_of_lt h)
    (readArr st r).length 0 (st ++ [List.replicate (readArr st r).length JsNum.nan]) mn
    (by simp) (by rw [hst2r]; omega) (by rw [hst2r, hst2n]; simp)
  show ((centerIterST peak r st.length (readArr st r).length 0
        (st ++ [List.replicate (readArr st r).length JsNum.nan]) mn).1, st.length,
      (centerIterST peak r st.length (readArr st r).length 0
        (st ++ [List.replicate (readArr st r).length JsNum.nan]) mn).2) = _
  rw [hspec]
  rw [show ((st ++ [List.replicate (readArr st r).length JsNum.nan]).set st.length
        ((readArr (st ++ [List.replicate (readArr st r).length JsNum.nan]) st.length).take 0
          ++ ((readArr (st ++ [List.replicate (readArr st r).length JsNum.nan]) r).drop 0).map
            (centerValF peak)))
      = st ++ [(readArr st r).map (centerValF peak)] from by
    rw [hst2r, List.take_zero, List.drop_zero, List.nil_append]
    exact set_append_cons st _ [] _]
  rw [hst2r, List.drop_zero]

theorem centerMapST_spec (peak : JsNum) :
    ∀ (refs : List Nat) (st : Store) (mn : JsNum),
      (∀ r ∈ refs, r < st.length) →
      centerMapST peak refs st mn
        = (st ++ refs.map (fun r => (readArr st r).map (centerValF peak)),
           refsFrom st.length refs.length,
           (centerAll peak (refs.map (readArr st)) mn).1) := by
  intro refs
  induction refs with
  | nil => intro st mn h; simp [centerMapST, refsFrom, centerAll]
  | cons r rest ih =>
    intro st mn h
    have hr : r < st.length := h r (List.mem_cons_self r rest)
    show ((centerMapST peak rest (centerSeriesST peak st r mn).1
          (centerSeriesST peak st r mn).2.2).1,
        (centerSeriesST peak st r mn).2.1
          :: (centerMapST peak rest (centerSeriesST peak st r mn).1
            (centerSeriesST peak st r mn).2.2).2.1,
        (centerMapST peak rest (centerSeriesST peak st r mn).1
          (centerSeriesST peak st r mn).2.2).2.2) = _
    rw [centerSeriesST_spec peak st r mn hr]
    have hvalid : ∀ r2 ∈ rest, r2 < (st ++ [(readArr st r).map (centerValF peak)]).length :=
      fun r2 hr2 => by
        have := h r2 (List.mem_cons_of_mem r hr2)
        simp
        omega
    rw [ih _ _ hvalid]
    have hread : rest.map (readArr (st ++ [(readArr st r).map (centerValF peak)]))
        = rest.map (readArr st) :=
      List.map_congr_left (fun r2 hr2 =>
        readArr_append_lt st _ r2 (h r2 (List.mem_cons_of_mem r hr2)))
    have hread2 : rest.map (fun r2 =>
          (readArr (st ++ [(readArr st r).map (centerValF peak)]) r2).map (centerValF peak))
        = rest.map (fun r2 => (readArr st r2).map (centerValF peak)) :=
      List.map_congr_left (fun r2 hr2 => by
        rw [readArr_append_lt st _ r2 (h r2 (List.mem_cons_of_mem r hr2))])
    rw [hread, hread2]
    simp only [Prod.mk.injEq]
    refine ⟨?_, ?_, ?_⟩
    · simp
    · simp [refsFrom]
    · rw [show (r :: rest).map (readArr st) = readArr st r :: rest.map (readArr st) from rfl]
      rfl

theorem shiftIterST_spec (offset : JsNum) (srcRef newRef : Nat) (hne : srcRef ≠ newRef) :
    ∀ (k i : Nat) (st : Store),
      newRef < st.length →
      i + k = (readArr st srcRef).length →
      (readArr st newRef).length = (readArr st srcRef).length →
      shiftIterST offset srcRef newRef k i st
        = st.set newRef ((readArr st newRef).take i
            ++ ((readArr st srcRef).drop i).map (shiftVal offset)) := by
  intro k
  induction k with
  | zero =>
    intro i st hlt hlen hAlen
    have hd : (readArr st srcRef).drop i = [] := List.drop_eq_nil_of_le (by omega)
    have ht : (readArr st newRef).take i = readArr st newRef :=
      List.take_of_length_le (by omega)
    show st = _
    rw [hd, ht]
    rw [show (([] : List JsNum).map (shiftVal offset)) = [] from rfl, List.append_nil,
      show st.set newRef (readArr st newRef) = st from set_getD_self st newRef hlt]
  | succ k ih =>
    intro i st hlt hlen hAlen
    have hsrc : i < (readArr st srcRef).length := by omega
    have hval : (readArr st srcRef).getD i JsNum.nan = (readArr st srcRef)[i] := by
      simp [List.getD_eq_getElem?_getD, List.getElem?_eq_getElem hsrc]
    have step : shiftIterST offset srcRef newRef (Nat.succ k) i st
        = shiftIterST offset srcRef newRef k (i + 1)
            (writeIdx st newRef i (shiftVal offset ((readArr st srcRef).getD i JsNum.nan))) :=
      rfl
    rw [step]
    have hrs : readArr (writeIdx st newRef i
          (shiftVal offset ((readArr st srcRef).getD i JsNum.nan))) srcRef
        = readArr st srcRef :=
      readArr_writeIdx_ne st newRef srcRef i _ (Ne.symm hne)
    have hrn : readArr (writeIdx st newRef i
          (shiftVal offset ((readArr st srcRef).getD i JsNum.nan))) newRef
        = (readArr st newRef).set i (shiftVal offset ((readArr st srcRef).getD i JsNum.nan)) :=
      readArr_writeIdx_self st newRef i _ hlt
    rw [ih (i + 1) _ (by rw [writeIdx_length]; exact hlt)
      (by rw [hrs]; omega) (by rw [hrs, hrn, List.length_set]; exact hAlen)]
    rw [hrs, hrn]
    rw [take_succ_set _ i _ (by rw [hAlen]; exact hsrc)]
    rw [show writeIdx st newRef i (shiftVal offset ((readArr st srcRef).getD i JsNum.nan))
        = st.set newRef ((st.getD newRef []).set i
            (shiftVal offset ((readArr st srcRef).getD i JsNum.nan))) from rfl]
    rw [List.set_set]
    rw [show (readArr st srcRef).drop i
        = (readArr st srcRef)[i] :: (readArr st srcRef).drop (i + 1)
      from List.drop_eq_getElem_cons hsrc, ← hval, List.map_cons]
    simp [List.append_assoc]

theorem shiftSeriesST_spec (offset : JsNum) (st : Store) (r : Nat) (h : r < st.length) :
    shiftSeriesST offset st r
      = (st ++ [(readArr st r).map (shiftVal offset)], st.length) := by
  have hst2r : readArr (st ++ [List.replicate (readArr st r).length JsNum.nan]) r
      = readArr st r :=
    readArr_append_lt st _ r h
  have hst2n : readArr (st ++ [List.replicate (readArr st r).length JsNum.nan]) st.length
      = List.replicate (readArr st r).length JsNum.nan :=
    readArr_append_cons st _ []
  have hspec := shiftIterST_spec offset r st.length (Nat.ne_of_lt h)
    (readArr st r).length 0 (st ++ [List.replicate (readArr st r).length JsNum.nan])
    (by simp) (by rw [hst2r]; omega) (by rw [hst2r, hst2n]; simp)
  show (shiftIterST offset r st.length (readArr st r).length 0
      (st ++ [List.replicate (readArr st r).length JsNum.nan]), st.length) = _
  rw [hspec]
  rw [show ((st ++ [List.replicate (readArr st r).length JsNum.nan]).set st.length
        ((readArr (st ++ [List.replicate (readArr st r).length JsNum.nan]) st.length).take 0
          ++ ((readArr (st ++ [List.replicate (readArr st r).length JsNum.nan]) r).drop 0).map
            (shiftVal offset)))
      = st ++ [(readArr st r).map (shiftVal offset)] from by
    rw [hst2r, List.take_zero, List.drop_zero, List.nil_append]
    exact set_append_cons st _ [] _]

theorem shiftMapST_spec (offset : JsNum) :
    ∀ (refs : List Nat) (st : Store),
      (∀ r ∈ refs, r < st.length) →
      shiftMapST offset refs st
        = (st ++ refs.map (fun r => (readArr st r).map (shiftVal offset)),
           refsFrom st.length refs.length) := by
  intro refs
  induction refs with
  | nil => intro st h; simp [shiftMapST, refsFrom]
  | cons r rest ih =>
    intro st h
    have hr : r < st.length := h r (List.mem_cons_self r rest)
    show ((shiftMapST offset rest (shiftSeriesST offset st r).1).1,
        (shiftSeriesST offset st r).2
          :: (shiftMapST offset rest (shiftSeriesST offset st r).1).2) = _
    rw [shiftSeriesST_spec offset st r hr]
    have hvalid : ∀ r2 ∈ rest, r2 < (st ++ [(readArr st r).map (shiftVal offset)]).length :=
      fun r2 hr2 => by
        have := h r2 (List.mem_cons_of_mem r hr2)
        simp
        omega
    rw [ih _ hvalid]
    have hread2 : rest.map (fun r2 =>
          (readArr (st ++ [(readArr st r).map (shiftVal offset)]) r2).map (shiftVal offset))
        = rest.map (fun r2 => (readArr st r2).map (shiftVal offset)) :=
      List.map_congr_left (fun r2 hr2 => by
        rw [readArr_append_lt st _ r2 (h r2 (List.mem_cons_of_mem r hr2))])
    rw [hread2]
    simp only [Prod.mk.injEq]
    refine ⟨by simp, by simp [refsFrom]⟩

theorem normalizeST_spec (st : Store) (refs : List Nat) (h : ∀ r ∈ refs, r < st.length) :
    st.length ≤ (normalizeST st refs).1.length ∧
    (∀ j, j < st.length → readArr (normalizeST st refs).1 j = readArr st j) ∧
    (normalizeST st refs).2.map (readArr (normalizeST st refs).1)
      = normalizePlaybackSeries (refs.map (readArr st)) := by
  by_cases h0 : refs.length = 0
  · rw [List.length_eq_zero.mp h0]
    exact ⟨le_refl _, fun j hj => rfl, rfl⟩
  · have hexp : normalizeST st refs = shiftMapST
        (if (centerAll (peakOf (refs.map (readArr st)))
              (refs.map (readArr st)) JsNum.posInf).1.isFinite
          then (centerAll (peakOf (refs.map (readArr st)))
              (refs.map (readArr st)) JsNum.posInf).1.neg
          else JsNum.fin 0)
        (refsFrom st.length refs.length)
        (st ++ refs.map (fun r =>
          (readArr st r).map (centerValF (peakOf (refs.map (readArr st)))))) := by
      unfold normalizeST
      simp only [h0, if_false]
      rw [centerMapST_spec _ refs st _ h]
    have hcsl : (refs.map (fun r => (readArr st r).map
        (centerValF (peakOf (refs.map (readArr st)))))).length = refs.length := by simp
    have hvalid2 : ∀ r2 ∈ refsFrom st.length refs.length,
        r2 < (st ++ refs.map (fun r => (readArr st r).map
          (centerValF (peakOf (refs.map (readArr st)))))).length := by
      intro r2 hr2
      have := refsFrom_lt hr2
      simp only [List.length_append, hcsl]
      omega
    rw [hexp, shiftMapST_spec _ _ _ hvalid2]
    have hreads : (refsFrom st.length refs.length).map
          (readArr (st ++ refs.map (fun r => (readArr st r).map
            (centerValF (peakOf (refs.map (readArr st)))))))
        = refs.map (fun r => (readArr st r).map
            (centerValF (peakOf (refs.map (readArr st))))) := by
      rw [← hcsl]
      exact map_readArr_refsFrom _ st
    have houts : (refsFrom st.length refs.length).map
          (fun r2 => (readArr (st ++ refs.map (fun r => (readArr st r).map
              (centerValF (peakOf (refs.map (readArr st)))))) r2).map
            (shiftVal (if (centerAll (peakOf (refs.map (readArr st)))
                  (refs.map (readArr st)) JsNum.posInf).1.isFinite
              then (centerAll (peakOf (refs.map (readArr st)))
                  (refs.map (readArr st)) JsNum.posInf).1.neg
              else JsNum.fin 0)))
        = (refs.map (fun r => (readArr st r).map
            (centerValF (peakOf (refs.map (readArr st)))))).map
          (List.map (shiftVal (if (centerAll (peakOf (refs.map (readArr st)))
                (refs.map (readArr st)) JsNum.posInf).1.isFinite
            then (centerAll (peakOf (refs.map (readArr st)))
                (refs.map (readArr st)) JsNum.posInf).1.neg
            else JsNum.fin 0))) := by
      conv_rhs => rw [← hreads]
      rw [List.map_map]
      simp [Function.comp]
    refine ⟨?_, ?_, ?_⟩
    · simp only [List.length_append]
      omega
    · intro j hj
      rw [readArr_append_lt _ _ j (by simp only [List.length_append]; omega),
        readArr_append_lt _ _ j hj]
    · rw [refsFrom_length, houts]
      have hol : ((refs.map (fun r => (readArr st r).map
            (centerValF (peakOf (refs.map (readArr st)))))).map
          (List.map (shiftVal (if (centerAll (peakOf (refs.map (readArr st)))
                (refs.map (readArr st)) JsNum.posInf).1.isFinite
            then (centerAll (peakOf (refs.map (readArr st)))
                (refs.map (readArr st)) JsNum.posInf).1.neg
            else JsNum.fin 0)))).length = refs.length := by simp
      rw [show refs.length = ((refs.map (fun r => (readArr st r).map
            (centerValF (peakOf (refs.map (readArr st)))))).map
          (List.map (shiftVal (if (centerAll (peakOf (refs.map (readArr st)))
                (refs.map (readArr st)) JsNum.posInf).1.isFinite
            then (centerAll (peakOf (refs.map (readArr st)))
                (refs.map (readArr st)) JsNum.posInf).1.neg
            else JsNum.fin 0)))).length from hol.symm]
      rw [map_readArr_refsFrom _ _]
      have hlen2 : (refs.map (readArr st)).length ≠ 0 := by
        simpa using h0
      have hnorm : normalizePlaybackSeries (refs.map (readArr st))
          = (centerAll (peakOf (refs.map (readArr st)))
              (refs.map (readArr st)) JsNum.posInf).2.map
            (fun source => source.map (shiftVal
              (if (centerAll (peakOf (refs.map (readArr st)))
                    (refs.map (readArr st)) JsNum.posInf).1.isFinite
                then (centerAll (peakOf (refs.map (readArr st)))
                    (refs.map (readArr st)) JsNum.posInf).1.neg
                else JsNum.fin 0))) := by
        unfold normalizePlaybackSeries
        simp only [hlen2, if_false]
      rw [hnorm, centerAll_snd]
      simp [List.map_map, Function.comp]

/-- C10: the store-passing run of the function leaves every previously
allocated array unchanged (no mutation of its inputs), its outputs read back
as exactly the value of the pure function on the dereferenced inputs, and a
second invocation on the same references yields the same output values
(deterministic, stateless). -/
theorem c10_theorem (st : Store) (refs : List Nat) (h : ∀ r ∈ refs, r < st.length) :
    (∀ j, j < st.length → readArr (normalizeST st refs).1 j = readArr st j) ∧
    (normalizeST st refs).2.map (readArr (normalizeST st refs).1)
      = normalizePlaybackSeries (refs.map (readArr st)) ∧
    (normalizeST (normalizeST st refs).1 refs).2.map
        (readArr (normalizeST (normalizeST st refs).1 refs).1)
      = (normalizeST st refs).2.map (readArr (normalizeST st refs).1) := by
  obtain ⟨hle, hframe, hcorr⟩ := normalizeST_spec st refs h
  refine ⟨hframe, hcorr, ?_⟩
  have h2 : ∀ r ∈ refs, r < (normalizeST st refs).1.length :=
    fun r hr => lt_of_lt_of_le (h r hr) hle
  obtain ⟨hle2, hframe2, hcorr2⟩ := normalizeST_spec (normalizeST st refs).1 refs h2
  rw [hcorr2, hcorr]
  congr 1
  exact List.map_congr_left (fun r hr => hframe r (h r hr))

/-- Witness for C10 at a one-series store. -/
theorem c10_witness :
    readArr (normalizeST [[JsNum.fin 1, JsNum.fin 3]] [0]).1 0
        = readArr [[JsNum.fin 1, JsNum.fin 3]] 0
    ∧ (normalizeST [[JsNum.fin 1, JsNum.fin 3]] [0]).2.map
          (readArr (normalizeST [[JsNum.fin 1, JsNum.fin 3]] [0]).1)
        = normalizePlaybackSeries ([0].map (readArr [[JsNum.fin 1, JsNum.fin 3]]))
    ∧ (normalizeST (normalizeST [[JsNum.fin 1, JsNum.fin 3]] [0]).1 [0]).2.map
          (readArr (normalizeST (normalizeST [[JsNum.fin 1, JsNum.fin 3]] [0]).1 [0]).1)
        = (normalizeST [[JsNum.fin 1, JsNum.fin 3]] [0]).2.map
          (readArr (normalizeST [[JsNum.fin 1, JsNum.fin 3]] [0]).1) :=
  ⟨(c10_theorem _ _ (by decide)).1 0 (by decide),
    (c10_theorem _ _ (by decide)).2.1,
    (c10_theorem _ _ (by decide)).2.2⟩

end SonicSuite
